import Mathlib

/-!
Verification of the Synapse LAN file-transfer core against its source.

The development shallowly embeds the wire-protocol engine:
byte streams are `List Nat` (each element a byte value), stateful readers
become explicit state passing, and the external BLAKE3 / zstd libraries are
treated as parameters (an arbitrary digest function, and an arbitrary
compressor given as the sequence of slices it writes plus a matching
decompressor), since only repository code is embedded.
-/

/-! ## Framing primitives (internal/transfer/protocol.go) -/

/-- Big-endian encoding of a 32-bit value into four bytes, as produced by
`binary.Write(w, binary.BigEndian, uint32(n))`. -/
def beBytes32 (n : Nat) : List Nat :=
  [n / 2 ^ 24 % 256, n / 2 ^ 16 % 256, n / 2 ^ 8 % 256, n % 256]

/-- Big-endian decoding of four bytes from the front of a stream, as done by
`binary.Read(r, binary.BigEndian, &length)` for a `uint32`; fails when fewer
than four bytes remain. -/
def readBE32 : List Nat → Option (Nat × List Nat)
  | a :: b :: c :: d :: rest => some (((a * 256 + b) * 256 + c) * 256 + d, rest)
  | _ => none

/-- ChunkedWriter.Write (protocol.go:37-47): a zero-length slice is a no-op;
otherwise emit the 4-byte big-endian length (`uint32(len(p))`, hence taken
mod 2^32) followed by the slice bytes. -/
def chunkedWrite (p : List Nat) : List Nat :=
  if p.length = 0 then [] else beBytes32 (p.length % 2 ^ 32) ++ p

/-- ChunkedWriter.Close (protocol.go:49-52): emit a zero length to signal EOF. -/
def chunkedWriterClose : List Nat :=
  beBytes32 0

/-- Bytes produced on the wire by a sequence of ChunkedWriter.Write calls
followed by Close. -/
def chunkedEncode (ps : List (List Nat)) : List Nat :=
  (ps.map chunkedWrite).flatten ++ chunkedWriterClose

/-- State of a ChunkedReader (protocol.go:55-59) together with the bytes
still available from its underlying reader. -/
structure CRState where
  stream : List Nat
  currChunk : Nat
  eofFlag : Bool
  deriving Repr, DecidableEq

/-- Result of one ChunkedReader.Read call. -/
inductive ReadResult
  | bytes (bs : List Nat)
  | eofR
  | errR
  deriving Repr, DecidableEq

/-- Tail of ChunkedReader.Read (protocol.go:83-91): shrink the caller's
buffer to the bytes remaining in the current chunk, then perform one read on
the underlying stream, which returns up to the requested byte count; an
exhausted underlying stream while chunk bytes are still due is a truncated
stream and surfaces as the underlying reader's error. -/
def readChunkBytes (s : CRState) (cap : Nat) : ReadResult × CRState :=
  let want := min cap s.currChunk
  if want = 0 then (.bytes [], s)
  else if s.stream = [] then (.errR, s)
  else
    let n := min want s.stream.length
    (.bytes (s.stream.take n),
     { s with stream := s.stream.drop n, currChunk := s.currChunk - n })

/-- ChunkedReader.Read (protocol.go:65-91): after EOF always report EOF;
with no current chunk, read the next 4-byte length, treat zero as the
end-of-stream sentinel, and otherwise continue into the fresh chunk within
the same call. -/
def chunkedRead (s : CRState) (cap : Nat) : ReadResult × CRState :=
  if s.eofFlag then (.eofR, s)
  else if s.currChunk = 0 then
    match readBE32 s.stream with
    | none => (.errR, s)
    | some (len, rest) =>
      if len = 0 then (.eofR, { s with stream := rest, eofFlag := true })
      else readChunkBytes { s with stream := rest, currChunk := len } cap
  else readChunkBytes s cap

/-- Repeatedly call ChunkedReader.Read with buffer size `cap` until the
reader reports end-of-stream, collecting all bytes returned; `fuel` bounds
the number of calls, `none` means the fuel ran out or a read errored. -/
def drainChunked : Nat → CRState → Nat → Option (List Nat × CRState)
  | 0, _, _ => none
  | fuel + 1, s, cap =>
    match chunkedRead s cap with
    | (.eofR, s') => some ([], s')
    | (.errR, _) => none
    | (.bytes bs, s') =>
      (drainChunked fuel s' cap).map (fun r => (bs ++ r.1, r.2))

theorem beBytes32_readBE32 (n : Nat) (h : n < 2 ^ 32) (rest : List Nat) :
    readBE32 (beBytes32 n ++ rest) = some (n, rest) := by
  simp only [beBytes32, readBE32, List.cons_append, List.nil_append]
  simp only [Option.some.injEq, Prod.mk.injEq, eq_self_iff_true, and_true]
  omega

theorem chunkedRead_eofState (s : CRState) (h : s.eofFlag = true) (cap : Nat) :
    chunkedRead s cap = (.eofR, s) := by
  unfold chunkedRead
  rw [h]
  simp

theorem chunkedRead_midchunk (s : CRState) (h : s.eofFlag = false)
    (h2 : s.currChunk ≠ 0) (cap : Nat) :
    chunkedRead s cap = readChunkBytes s cap := by
  unfold chunkedRead
  rw [h]
  simp [h2]

theorem chunkedRead_sentinel (rest : List Nat) (cap : Nat) :
    chunkedRead ⟨beBytes32 0 ++ rest, 0, false⟩ cap = (.eofR, ⟨rest, 0, true⟩) := by
  unfold chunkedRead
  rw [show (⟨beBytes32 0 ++ rest, 0, false⟩ : CRState).stream = beBytes32 0 ++ rest from rfl,
    beBytes32_readBE32 0 (by norm_num) rest]
  simp

theorem chunkedRead_header (p rest : List Nat) (hp : p ≠ [])
    (hlt : p.length < 2 ^ 32) (cap : Nat) :
    chunkedRead ⟨beBytes32 (p.length % 2 ^ 32) ++ (p ++ rest), 0, false⟩ cap
      = readChunkBytes ⟨p ++ rest, p.length, false⟩ cap := by
  have hmod : p.length % 2 ^ 32 = p.length := Nat.mod_eq_of_lt hlt
  have hne : p.length ≠ 0 := fun h => hp (List.length_eq_zero.mp h)
  unfold chunkedRead
  rw [hmod]
  rw [show (⟨beBytes32 p.length ++ (p ++ rest), 0, false⟩ : CRState).stream
      = beBytes32 p.length ++ (p ++ rest) from rfl,
    beBytes32_readBE32 p.length hlt (p ++ rest)]
  simp [hne]

theorem readChunkBytes_spec (c rest : List Nat) (cap : Nat) (hc : c ≠ [])
    (hcap : 1 ≤ cap) :
    readChunkBytes ⟨c ++ rest, c.length, false⟩ cap
      = (.bytes (c.take (min cap c.length)),
         ⟨c.drop (min cap c.length) ++ rest, c.length - min cap c.length, false⟩) := by
  have hclen : 0 < c.length := List.length_pos.mpr hc
  have hwant : min cap c.length ≠ 0 := by omega
  have hne2 : c ++ rest ≠ [] := by
    cases c with
    | nil => exact absurd rfl hc
    | cons a t => simp
  have hlen2 : min cap c.length ≤ (c ++ rest).length := by
    rw [List.length_append]
    have := Nat.min_le_right cap c.length
    omega
  have hn : min (min cap c.length) (c ++ rest).length = min cap c.length :=
    Nat.min_eq_left hlen2
  have htake : (c ++ rest).take (min cap c.length) = c.take (min cap c.length) :=
    List.take_append_of_le_length (Nat.min_le_right cap c.length)
  have hdrop : (c ++ rest).drop (min cap c.length) = c.drop (min cap c.length) ++ rest :=
    List.drop_append_of_le_length (Nat.min_le_right cap c.length)
  unfold readChunkBytes
  simp only [hwant, if_false, hne2, hn, htake, hdrop]

theorem drainChunked_step_eof (fuel cap : Nat) (s s' : CRState)
    (h : chunkedRead s cap = (.eofR, s')) :
    drainChunked (fuel + 1) s cap = some ([], s') := by
  unfold drainChunked
  rw [h]

theorem drainChunked_step_bytes (fuel cap : Nat) (s s' : CRState)
    (bs out : List Nat) (sf : CRState)
    (h : chunkedRead s cap = (.bytes bs, s'))
    (h2 : drainChunked fuel s' cap = some (out, sf)) :
    drainChunked (fuel + 1) s cap = some (bs ++ out, sf) := by
  unfold drainChunked
  rw [h]
  simp [h2]

theorem drainChunked_congr (fuel cap : Nat) (s t : CRState)
    (h : chunkedRead s cap = chunkedRead t cap) :
    drainChunked (fuel + 1) s cap = drainChunked (fuel + 1) t cap := by
  unfold drainChunked
  rw [h]

/-- Consuming the data bytes of the current chunk: if the stream starts with
the `c` bytes still due in the current chunk, reading with any positive
buffer size eventually hands back exactly `c` and then continues as from the
rest of the stream. -/
theorem drain_consume_chunk (k : Nat) :
    ∀ c : List Nat, c.length ≤ k → c ≠ [] →
    ∀ (rest : List Nat) (cap : Nat), 1 ≤ cap →
    ∀ (out : List Nat) (sf : CRState) (fuel₁ : Nat),
    drainChunked fuel₁ ⟨rest, 0, false⟩ cap = some (out, sf) →
    ∃ fuel₂, drainChunked (fuel₂ + 1) ⟨c ++ rest, c.length, false⟩ cap
      = some (c ++ out, sf) := by
  induction k with
  | zero =>
    intro c hlen hne
    exact absurd (List.length_eq_zero.mp (Nat.le_zero.mp hlen)) hne
  | succ k ih =>
    intro c hlen hne rest cap hcap out sf fuel₁ hdrain
    have hclen : 0 < c.length := List.length_pos.mpr hne
    have hstep : chunkedRead ⟨c ++ rest, c.length, false⟩ cap
        = (.bytes (c.take (min cap c.length)),
           ⟨c.drop (min cap c.length) ++ rest, c.length - min cap c.length, false⟩) := by
      rw [chunkedRead_midchunk _ rfl (Nat.pos_iff_ne_zero.mp hclen) cap]
      exact readChunkBytes_spec c rest cap hne hcap
    by_cases hw : min cap c.length = c.length
    · refine ⟨fuel₁, ?_⟩
      rw [hw] at hstep
      rw [List.take_length, List.drop_length, Nat.sub_self, List.nil_append] at hstep
      exact drainChunked_step_bytes fuel₁ cap _ _ c out sf hstep hdrain
    · have hwlt : min cap c.length < c.length :=
        lt_of_le_of_ne (Nat.min_le_right cap c.length) hw
      have hw1 : 1 ≤ min cap c.length := by
        have := Nat.le_min.mpr ⟨hcap, hclen⟩
        omega
      have hdne : c.drop (min cap c.length) ≠ [] := by
        intro hnil
        have := List.length_drop (min cap c.length) c
        rw [hnil] at this
        simp at this
        omega
      have hdlen : (c.drop (min cap c.length)).length ≤ k := by
        rw [List.length_drop]
        omega
      obtain ⟨fuel', hrec⟩ :=
        ih (c.drop (min cap c.length)) hdlen hdne rest cap hcap out sf fuel₁ hdrain
      refine ⟨fuel' + 1, ?_⟩
      rw [List.length_drop] at hrec
      have hfinal := drainChunked_step_bytes (fuel' + 1) cap _ _
        (c.take (min cap c.length)) (c.drop (min cap c.length) ++ out) sf hstep hrec
      rw [hfinal, ← List.append_assoc, List.take_append_drop]

/-- Draining a ChunkedReader over the exact byte stream a ChunkedWriter
produced (followed by arbitrary trailing bytes) returns the concatenation of
the written slices and leaves exactly the trailing bytes unconsumed. -/
theorem drainChunked_encode (ps : List (List Nat))
    (h : ∀ p ∈ ps, p.length < 2 ^ 32) (trailing : List Nat) (cap : Nat)
    (hcap : 1 ≤ cap) :
    ∃ fuel, drainChunked (fuel + 1) ⟨chunkedEncode ps ++ trailing, 0, false⟩ cap
      = some (ps.flatten, ⟨trailing, 0, true⟩) := by
  induction ps with
  | nil =>
    refine ⟨0, ?_⟩
    have he : chunkedEncode [] ++ trailing = beBytes32 0 ++ trailing := by
      simp [chunkedEncode, chunkedWriterClose]
    rw [he]
    simpa using drainChunked_step_eof 0 cap _ _ (chunkedRead_sentinel trailing cap)
  | cons p ps ih =>
    obtain ⟨fuel₁, h₁⟩ := ih (fun q hq => h q (List.mem_cons_of_mem p hq))
    by_cases hp : p = []
    · subst hp
      refine ⟨fuel₁, ?_⟩
      have he : chunkedEncode ([] :: ps) = chunkedEncode ps := by
        simp [chunkedEncode, chunkedWrite]
      rw [he]
      simpa using h₁
    · have hlt : p.length < 2 ^ 32 := h p (List.mem_cons_self p ps)
      have hlp : p.length ≠ 0 := fun h0 => hp (List.length_eq_zero.mp h0)
      obtain ⟨fuel₂, h₂⟩ := drain_consume_chunk p.length p le_rfl hp
        (chunkedEncode ps ++ trailing) cap hcap ps.flatten ⟨trailing, 0, true⟩
        (fuel₁ + 1) h₁
      refine ⟨fuel₂, ?_⟩
      have he : chunkedEncode (p :: ps) ++ trailing
          = beBytes32 (p.length % 2 ^ 32) ++ (p ++ (chunkedEncode ps ++ trailing)) := by
        simp [chunkedEncode, chunkedWrite, hlp, List.append_assoc]
      rw [he]
      have hcongr : chunkedRead ⟨beBytes32 (p.length % 2 ^ 32)
            ++ (p ++ (chunkedEncode ps ++ trailing)), 0, false⟩ cap
          = chunkedRead ⟨p ++ (chunkedEncode ps ++ trailing), p.length, false⟩ cap := by
        rw [chunkedRead_header p (chunkedEncode ps ++ trailing) hp hlt cap,
          chunkedRead_midchunk _ rfl hlp cap]
      rw [drainChunked_congr fuel₂ cap _ _ hcongr, h₂]
      simp

/-- C4: writing a finite sequence of byte slices through a ChunkedWriter
followed by Close and reading the produced stream back through a
ChunkedReader yields exactly the concatenation of the written slices and
reports end-of-stream at the zero-length sentinel; writing a zero-length
slice emits no bytes, and after end-of-stream every further read returns
end-of-stream. -/
theorem chunk_framing_roundtrip (ps : List (List Nat)) (trailing : List Nat)
    (cap : Nat) (h : ∀ p ∈ ps, p.length < 2 ^ 32) (hcap : 1 ≤ cap) :
    (∃ fuel sf, drainChunked fuel ⟨chunkedEncode ps ++ trailing, 0, false⟩ cap
        = some (ps.flatten, sf) ∧ sf.eofFlag = true)
    ∧ chunkedWrite [] = []
    ∧ (∀ s : CRState, s.eofFlag = true → chunkedRead s cap = (.eofR, s)) := by
  refine ⟨?_, rfl, fun s hs => chunkedRead_eofState s hs cap⟩
  obtain ⟨fuel, hf⟩ := drainChunked_encode ps h trailing cap hcap
  exact ⟨fuel + 1, ⟨trailing, 0, true⟩, hf, rfl⟩

theorem chunk_framing_roundtrip_witness :
    (∃ fuel sf, drainChunked fuel
        ⟨chunkedEncode [[1, 2], [], [3]] ++ [9], 0, false⟩ 4
        = some ([[1, 2], [], [3]].flatten, sf) ∧ sf.eofFlag = true)
    ∧ chunkedWrite [] = []
    ∧ (∀ s : CRState, s.eofFlag = true → chunkedRead s 4 = (.eofR, s)) :=
  chunk_framing_roundtrip [[1, 2], [], [3]] [9] 4 (by decide) (by decide)

/-- C10: the ChunkedReader never consumes bytes from the underlying stream
beyond the zero-length sentinel: a mid-chunk read consumes at most the bytes
remaining in the current chunk, and after draining a well-formed chunked
stream the trailing 32-byte footer is still unconsumed on the underlying
stream. -/
theorem chunked_reader_stops_at_sentinel (ps : List (List Nat))
    (footer : List Nat) (cap : Nat) (h : ∀ p ∈ ps, p.length < 2 ^ 32)
    (hcap : 1 ≤ cap) (hfoot : footer.length = 32) :
    (∀ s : CRState, s.eofFlag = false → s.currChunk ≠ 0 →
      s.stream.length - ((chunkedRead s cap).2).stream.length ≤ min cap s.currChunk)
    ∧ ∃ fuel r, drainChunked fuel ⟨chunkedEncode ps ++ footer, 0, false⟩ cap
        = some r ∧ r.2.stream = footer ∧ r.2.stream.length = 32 := by
  constructor
  · intro s hf hcc
    rw [chunkedRead_midchunk s hf hcc cap]
    unfold readChunkBytes
    by_cases h0 : min cap s.currChunk = 0
    · simp [h0]
    · by_cases hs : s.stream = []
      · simp [h0, hs]
      · simp only [h0, if_false, hs, List.length_drop]
        omega
  · obtain ⟨fuel, hf⟩ := drainChunked_encode ps h footer cap hcap
    exact ⟨fuel + 1, (ps.flatten, ⟨footer, 0, true⟩), hf, rfl, hfoot⟩

theorem chunked_reader_stops_at_sentinel_witness :
    (∀ s : CRState, s.eofFlag = false → s.currChunk ≠ 0 →
      s.stream.length - ((chunkedRead s 7).2).stream.length ≤ min 7 s.currChunk)
    ∧ ∃ fuel r, drainChunked fuel
        ⟨chunkedEncode [[5, 6]] ++ List.replicate 32 0, 0, false⟩ 7
        = some r ∧ r.2.stream = List.replicate 32 0 ∧ r.2.stream.length = 32 :=
  chunked_reader_stops_at_sentinel [[5, 6]] (List.replicate 32 0) 7
    (by decide) (by decide) (by simp)

/-! ## Outer length-prefixed records (sender.go:215-227, receiver.go:320-331) -/

/-- Big-endian encoding of a nonnegative int64 value into eight bytes. -/
def beBytes64 (n : Nat) : List Nat :=
  [n / 2 ^ 56 % 256, n / 2 ^ 48 % 256, n / 2 ^ 40 % 256, n / 2 ^ 32 % 256,
   n / 2 ^ 24 % 256, n / 2 ^ 16 % 256, n / 2 ^ 8 % 256, n % 256]

/-- Big-endian decoding of a signed 8-byte int64 from the front of a stream,
as done by `binary.Read(conn, binary.BigEndian, &length)`. -/
def readInt64BE (s : List Nat) : Option (Int × List Nat) :=
  match s with
  | b0 :: b1 :: b2 :: b3 :: b4 :: b5 :: b6 :: b7 :: rest =>
    let u := ((((((b0 * 256 + b1) * 256 + b2) * 256 + b3) * 256 + b4) * 256 + b5)
        * 256 + b6) * 256 + b7
    some (if u < 2 ^ 63 then (u : Int) else (u : Int) - 2 ^ 64, rest)
  | _ => none

/-- io.ReadFull of `n` bytes from the front of a stream. -/
def readFull (n : Nat) (s : List Nat) : Option (List Nat × List Nat) :=
  if s.length < n then none else some (s.take n, s.drop n)

/-- Receiver header-record read (receiver.go:320-331): read the 8-byte
length, reject lengths above 65536, then read that many payload bytes (a
negative length would make `make([]byte, headerLen)` panic; modelled as an
error). -/
def receiverReadHeaderRecord (s : List Nat) : Except String (List Nat × List Nat) :=
  match readInt64BE s with
  | none => .error "failed to read header length"
  | some (len, rest) =>
    if len > 65536 then .error "header length too large"
    else if len < 0 then .error "panic in make"
    else
      match readFull len.toNat rest with
      | none => .error "failed to read header JSON"
      | some (payload, rest') => .ok (payload, rest')

/-- Sender request-record read (sender.go:215-227): read the 8-byte length
and then that many payload bytes; the source performs no length limit check
(a negative length would make `make([]byte, reqLen)` panic; modelled as an
error). -/
def senderReadRequestRecord (s : List Nat) : Except String (List Nat × List Nat) :=
  match readInt64BE s with
  | none => .error "failed to read request length"
  | some (len, rest) =>
    if len < 0 then .error "panic in make"
    else
      match readFull len.toNat rest with
      | none => .error "failed to read request JSON"
      | some (payload, rest') => .ok (payload, rest')

theorem beBytes64_readInt64BE (n : Nat) (h : n < 2 ^ 63) (rest : List Nat) :
    readInt64BE (beBytes64 n ++ rest) = some ((n : Int), rest) := by
  simp only [beBytes64, readInt64BE, List.cons_append, List.nil_append]
  have hu : ((((((n / 2 ^ 56 % 256 * 256 + n / 2 ^ 48 % 256) * 256 + n / 2 ^ 40 % 256)
        * 256 + n / 2 ^ 32 % 256) * 256 + n / 2 ^ 24 % 256) * 256 + n / 2 ^ 16 % 256)
        * 256 + n / 2 ^ 8 % 256) * 256 + n % 256 = n := by
    omega
  rw [hu, if_pos (by exact_mod_cast h)]

/-- C8 fails as stated: the sender's request-record reader does not enforce
the 65,536-byte limit; announcing 65,537 bytes makes it read the whole
payload and succeed rather than fail. -/
theorem sender_request_no_limit_counterexample :
    senderReadRequestRecord (beBytes64 65537 ++ List.replicate 65537 7)
      = .ok (List.replicate 65537 7, [])
    ∧ 65536 < (65537 : Int) := by
  refine ⟨?_, by norm_num⟩
  have hrf : readFull (Int.toNat ((65537 : Nat) : Int)) (List.replicate 65537 7)
      = some (List.replicate 65537 7, []) := by
    have ht : Int.toNat ((65537 : Nat) : Int) = 65537 := by simp
    rw [ht]
    unfold readFull
    rw [List.length_replicate, if_neg (lt_irrefl 65537)]
    rw [List.take_replicate, List.drop_replicate, min_self, Nat.sub_self,
      List.replicate_zero]
  unfold senderReadRequestRecord
  rw [beBytes64_readInt64BE 65537 (by norm_num) (List.replicate 65537 7)]
  dsimp only
  rw [if_neg (by omega), hrf]

/-- C8 (amended): the receiver's header-record reader enforces the
65,536-byte limit, failing the session whenever the announced length exceeds
it, while the sender's request-record reader performs no length check and
reads the announced payload regardless of its size. -/
theorem outer_record_length_limit (n : Nat) (hn : n < 2 ^ 63)
    (rest payload after : List Nat) (hp : payload.length = n) :
    (65536 < n →
      receiverReadHeaderRecord (beBytes64 n ++ rest)
        = .error "header length too large")
    ∧ senderReadRequestRecord (beBytes64 n ++ (payload ++ after))
        = .ok (payload, after) := by
  constructor
  · intro hgt
    unfold receiverReadHeaderRecord
    rw [beBytes64_readInt64BE n hn rest]
    dsimp only
    rw [if_pos (by exact_mod_cast hgt)]
  · unfold senderReadRequestRecord
    rw [beBytes64_readInt64BE n hn (payload ++ after)]
    dsimp only
    rw [if_neg (by omega)]
    have ht : Int.toNat ((n : Nat) : Int) = n := by simp
    rw [ht]
    subst hp
    unfold readFull
    rw [if_neg (by simp), List.take_left, List.drop_left]

theorem outer_record_length_limit_witness :
    (65536 < 70000 →
      receiverReadHeaderRecord (beBytes64 70000 ++ [1, 2])
        = .error "header length too large")
    ∧ senderReadRequestRecord (beBytes64 70000 ++ (List.replicate 70000 3 ++ [4]))
        = .ok (List.replicate 70000 3, [4]) :=
  outer_record_length_limit 70000 (by norm_num) [1, 2] (List.replicate 70000 3) [4]
    (by rw [List.length_replicate])

/-! ## Resume offset clamping (sender.go:230-247) -/

/-- Sender offset clamp (sender.go:230-233): an offset greater than the file
size is replaced by 0; any other requested offset, including a negative one,
is used unchanged. -/
def clampOffset (reqOffset fileSize : Int) : Int :=
  if reqOffset > fileSize then 0 else reqOffset

/-- Bytes the sender streams after seeking the source to the effective
offset and copying to end-of-file (sender.go:239-247, 295-298). -/
def senderSourceBytes (content : List Nat) (reqOffset : Int) : List Nat :=
  content.drop (clampOffset reqOffset (content.length : Int)).toNat

/-- C7 fails as stated: a negative requested offset is not clamped into
[0, size]; the sender uses it unchanged, so the effective offset can lie
outside [0, size]. -/
theorem offset_clamp_counterexample :
    clampOffset (-1) 10 = -1 ∧ ¬ (0 ≤ clampOffset (-1) 10) := by
  constructor
  · rfl
  · intro h
    rw [show clampOffset (-1) 10 = -1 from rfl] at h
    omega

/-- C7 (amended): for every nonnegative requested offset the effective
offset lies in [0, size] — an offset greater than size becomes 0, any other
nonnegative offset is used unchanged — and the sender then streams the
source suffix from the effective offset to the end, size minus offset bytes;
a negative requested offset is passed through unchanged. -/
theorem offset_clamp_amended (req size : Int) (hreq : 0 ≤ req) (hsize : 0 ≤ size) :
    0 ≤ clampOffset req size ∧ clampOffset req size ≤ size
    ∧ (size < req → clampOffset req size = 0)
    ∧ (req ≤ size → clampOffset req size = req)
    ∧ (∀ content : List Nat, (content.length : Int) = size →
        ((senderSourceBytes content req).length : Int) = size - clampOffset req size)
    ∧ (∀ bad : Int, bad < 0 → clampOffset bad size = bad) := by
  have hstream : ∀ content : List Nat, (content.length : Int) = size →
      ((senderSourceBytes content req).length : Int) = size - clampOffset req size := by
    intro content hc
    unfold senderSourceBytes clampOffset
    rw [hc]
    by_cases h : req > size
    · rw [if_pos h]
      simp only [Int.toNat_zero, List.drop_zero]
      omega
    · rw [if_neg h]
      rw [List.length_drop]
      omega
  have hpass : ∀ bad : Int, bad < 0 → clampOffset bad size = bad := by
    intro bad hbad
    unfold clampOffset
    rw [if_neg (by omega)]
  have hval : clampOffset req size = if req > size then 0 else req := rfl
  by_cases h : req > size
  · rw [if_pos h] at hval
    exact ⟨by omega, by omega, fun _ => hval, fun hle => absurd h (not_lt.mpr hle),
      hstream, hpass⟩
  · rw [if_neg h] at hval
    exact ⟨by omega, by omega, fun hlt => absurd hlt h, fun _ => hval,
      hstream, hpass⟩

theorem offset_clamp_amended_witness :
    0 ≤ clampOffset 7 5 ∧ clampOffset 7 5 ≤ 5
    ∧ ((5 : Int) < 7 → clampOffset 7 5 = 0)
    ∧ ((7 : Int) ≤ 5 → clampOffset 7 5 = 7)
    ∧ (∀ content : List Nat, (content.length : Int) = 5 →
        ((senderSourceBytes content 7).length : Int) = 5 - clampOffset 7 5)
    ∧ (∀ bad : Int, bad < 0 → clampOffset bad 5 = bad) :=
  offset_clamp_amended 7 5 (by norm_num) (by norm_num)

/-! ## Compression selection (sender.go:341-355) -/

def CompressionNone : String := "none"
def CompressionGzip : String := "gzip"
def CompressionZstd : String := "zstd"

/-- filepath.Ext scans the path from its end towards the front, stopping at
a path separator, and returns the suffix starting at the last dot of the
final element (empty when there is none); modelled over the reversed
character list with the suffix seen so far as accumulator. -/
def goExtAux : List Char → List Char → Option (List Char)
  | [], _ => none
  | c :: rest, acc =>
    if c = '/' then none
    else if c = '.' then some (c :: acc)
    else goExtAux rest (c :: acc)

/-- filepath.Ext as used by getCompressionMethod. -/
def goExt (p : List Char) : List Char :=
  match goExtAux p.reverse [] with
  | some e => e
  | none => []

/-- strings.ToLower, applied characterwise (the compared extensions are
ASCII). -/
def toLowerList (l : List Char) : List Char := l.map Char.toLower

/-- getCompressionMethod (sender.go:341-355): directories (archives) are
never compressed; otherwise the lower-cased filename extension selects the
mode through two explicit extension lists, defaulting to no compression. -/
def getCompressionMethod (filename : List Char) (isDir : Bool) : String :=
  if isDir then CompressionNone
  else
    let ext := toLowerList (goExt filename)
    if ext ∈ [['.', 'j', 'p', 'g'], ['.', 'p', 'n', 'g'], ['.', 'm', 'p', '4'],
        ['.', 'z', 'i', 'p'], ['.', 'i', 's', 'o'], ['.', 'd', 'm', 'g'],
        ['.', 'g', 'z'], ['.', 'z', 's', 't'], ['.', '7', 'z'],
        ['.', 'r', 'a', 'r']] then CompressionNone
    else if ext ∈ [['.', 't', 'x', 't'], ['.', 'l', 'o', 'g'],
        ['.', 'j', 's', 'o', 'n'], ['.', 'm', 'd'], ['.', 'g', 'o']] then
      CompressionZstd
    else CompressionNone

/-- Compression policy in the specification's words: a pure function of the
extension name (written without its leading dot) and the is_archive flag;
the listed extensions select no compression or zstd, everything else none. -/
def compressionPolicySpec (ext : List Char) (isArchive : Bool) : String :=
  if isArchive then CompressionNone
  else if ext ∈ [['j', 'p', 'g'], ['p', 'n', 'g'], ['m', 'p', '4'],
      ['z', 'i', 'p'], ['i', 's', 'o'], ['d', 'm', 'g'], ['g', 'z'],
      ['z', 's', 't'], ['7', 'z'], ['r', 'a', 'r']] then CompressionNone
  else if ext ∈ [['t', 'x', 't'], ['l', 'o', 'g'], ['j', 's', 'o', 'n'],
      ['m', 'd'], ['g', 'o']] then CompressionZstd
  else CompressionNone

/-- Mapping between the code's dotted extension strings and the spec's bare
extension names. -/
def dropLeadingDot : List Char → List Char
  | '.' :: r => r
  | l => l

theorem goExtAux_dot (l : List Char) :
    ∀ acc, goExtAux l acc = none ∨ ∃ t, goExtAux l acc = some ('.' :: t) := by
  induction l with
  | nil => intro acc; exact Or.inl rfl
  | cons c rest ih =>
    intro acc
    unfold goExtAux
    by_cases h1 : c = '/'
    · rw [if_pos h1]
      exact Or.inl rfl
    · rw [if_neg h1]
      by_cases h2 : c = '.'
      · rw [if_pos h2]
        subst h2
        exact Or.inr ⟨acc, rfl⟩
      · rw [if_neg h2]
        exact ih (c :: acc)

theorem goExt_shape (p : List Char) :
    goExt p = [] ∨ ∃ t, goExt p = '.' :: t := by
  unfold goExt
  rcases goExtAux_dot p.reverse [] with h | ⟨t, h⟩
  · rw [h]
    exact Or.inl rfl
  · rw [h]
    exact Or.inr ⟨t, rfl⟩

/-- C6: compression selection is a pure function of the filename extension
and the archive flag, agreeing with the specification's table: archives and
the known-incompressible extensions map to none, the listed text extensions
map to zstd, and every other extension maps to none. -/
theorem compression_policy_refines_spec (filename : List Char) (isDir : Bool) :
    getCompressionMethod filename isDir
      = compressionPolicySpec (dropLeadingDot (toLowerList (goExt filename))) isDir := by
  cases isDir with
  | true => rfl
  | false =>
    rcases goExt_shape filename with h | ⟨t, h⟩
    · unfold getCompressionMethod compressionPolicySpec
      rw [h]
      rfl
    · unfold getCompressionMethod compressionPolicySpec
      rw [h]
      have hmap : toLowerList ('.' :: t) = '.' :: toLowerList t := by
        simp only [toLowerList, List.map_cons]
        rw [show Char.toLower '.' = '.' from by decide]
      rw [hmap]
      have hdrop : dropLeadingDot ('.' :: toLowerList t) = toLowerList t := rfl
      rw [hdrop]
      have hA : ('.' :: toLowerList t ∈ [['.', 'j', 'p', 'g'], ['.', 'p', 'n', 'g'],
          ['.', 'm', 'p', '4'], ['.', 'z', 'i', 'p'], ['.', 'i', 's', 'o'],
          ['.', 'd', 'm', 'g'], ['.', 'g', 'z'], ['.', 'z', 's', 't'],
          ['.', '7', 'z'], ['.', 'r', 'a', 'r']])
          ↔ (toLowerList t ∈ [['j', 'p', 'g'], ['p', 'n', 'g'], ['m', 'p', '4'],
          ['z', 'i', 'p'], ['i', 's', 'o'], ['d', 'm', 'g'], ['g', 'z'],
          ['z', 's', 't'], ['7', 'z'], ['r', 'a', 'r']]) := by
        simp
      have hB : ('.' :: toLowerList t ∈ [['.', 't', 'x', 't'], ['.', 'l', 'o', 'g'],
          ['.', 'j', 's', 'o', 'n'], ['.', 'm', 'd'], ['.', 'g', 'o']])
          ↔ (toLowerList t ∈ [['t', 'x', 't'], ['l', 'o', 'g'],
          ['j', 's', 'o', 'n'], ['m', 'd'], ['g', 'o']]) := by
        simp
      simp only [Bool.false_eq_true, if_false]
      exact if_congr hA rfl (if_congr hB rfl rfl)

/-! ## Filename sanitisation (pkg/utils/utils.go:11-17, receiver.go:339-366) -/

/-- filepath.Base on a slash-separated path: an empty path gives ".", a path
of only separators gives "/", and otherwise the final element after
stripping trailing separators. -/
def goBase (p : List Char) : List Char :=
  if p = [] then ['.']
  else if p.reverse.dropWhile (fun c => c == '/') = [] then ['/']
  else ((p.reverse.dropWhile (fun c => c == '/')).takeWhile (fun c => !(c == '/'))).reverse

/-- White-space characters in the Latin-1 range recognised by Go's
unicode.IsSpace; code points above U+00FF also recognised by Go are not
modelled, which only affects names made purely of such exotic spaces. -/
def goIsSpace (c : Char) : Bool :=
  c == ' ' || c == '\t' || c == '\n' || c == Char.ofNat 11 || c == Char.ofNat 12 ||
  c == '\r' || c == Char.ofNat 133 || c == Char.ofNat 160

/-- strings.TrimSpace: strip leading and trailing white space. -/
def trimSpaceGo (s : List Char) : List Char :=
  ((s.dropWhile goIsSpace).reverse.dropWhile goIsSpace).reverse

/-- SanitizeFilename (pkg/utils/utils.go:11-17): take the path basename and
replace ".", "/" and all-whitespace results by the constant name. -/
def SanitizeFilename (name : List Char) : List Char :=
  if goBase name = ['.'] ∨ goBase name = ['/'] ∨ trimSpaceGo (goBase name) = [] then
    "downloaded_file".toList
  else goBase name

/-- Resolution of relative path components against a base component list:
empty and dot components vanish, a dot-dot component removes the last
component (stepping out of the base when it pops components of the base
itself), and every other component descends; this mirrors how the target
path {download_dir}/{safe_name} resolves on the file system. -/
def pathResolve (base : List (List Char)) (comps : List (List Char)) :
    List (List Char) :=
  comps.foldl
    (fun acc c =>
      if c = [] ∨ c = ['.'] then acc
      else if c = ['.', '.'] then acc.dropLast
      else acc ++ [c]) base

/-- Strict containment of a resolved path under a base directory. -/
def properDescendant (base r : List (List Char)) : Prop :=
  ∃ t, t ≠ [] ∧ r = base ++ t

theorem dropWhile_head_false {α : Type} (p : α → Bool) (l : List α) :
    l.dropWhile p = [] ∨ ∃ a t, l.dropWhile p = a :: t ∧ p a = false := by
  induction l with
  | nil => exact Or.inl rfl
  | cons c rest ih =>
    cases hpc : p c with
    | true =>
      rw [List.dropWhile_cons, if_pos (by rw [hpc])]
      exact ih
    | false =>
      rw [List.dropWhile_cons, if_neg (by rw [hpc]; simp)]
      exact Or.inr ⟨c, rest, rfl, hpc⟩

theorem goBase_no_slash (p : List Char) :
    goBase p = ['/'] ∨ (goBase p ≠ [] ∧ ∀ c ∈ goBase p, c ≠ '/') := by
  unfold goBase
  by_cases hp : p = []
  · rw [if_pos hp]
    refine Or.inr ⟨by simp, ?_⟩
    intro c hc
    simp at hc
    subst hc
    decide
  · rw [if_neg hp]
    rcases dropWhile_head_false (fun c => c == '/') p.reverse with h | ⟨a, t, h, ha⟩
    · rw [h, if_pos rfl]
      exact Or.inl rfl
    · rw [h, if_neg (List.cons_ne_nil a t)]
      refine Or.inr ⟨?_, ?_⟩
      · rw [List.takeWhile_cons, if_pos (by rw [ha]; simp)]
        simp
      · intro c hc
        rw [List.mem_reverse] at hc
        have hmem := List.mem_takeWhile_imp hc
        simp at hmem
        exact hmem

theorem pathResolve_single (base : List (List Char)) (x : List Char)
    (h1 : x ≠ []) (h2 : x ≠ ['.']) (h3 : x ≠ ['.', '.']) :
    pathResolve base [x] = base ++ [x] := by
  unfold pathResolve
  simp only [List.foldl_cons, List.foldl_nil]
  rw [if_neg (not_or.mpr ⟨h1, h2⟩), if_neg h3]

/-- C9 fails as stated: the header name ".." passes through SanitizeFilename
unchanged, and joining it to the download directory resolves to the parent
of the download directory rather than staying inside it. -/
theorem sanitize_filename_counterexample :
    SanitizeFilename ['.', '.'] = ['.', '.']
    ∧ pathResolve [['r', 'e', 'c', 'v']] [SanitizeFilename ['.', '.']] = []
    ∧ ¬ properDescendant [['r', 'e', 'c', 'v']]
        (pathResolve [['r', 'e', 'c', 'v']] [SanitizeFilename ['.', '.']]) := by
  have h1 : SanitizeFilename ['.', '.'] = ['.', '.'] := by decide
  have h2 : pathResolve [['r', 'e', 'c', 'v']] [SanitizeFilename ['.', '.']] = [] := by
    decide
  refine ⟨h1, h2, ?_⟩
  rw [h2]
  rintro ⟨t, ht, he⟩
  exact (List.cons_ne_nil _ _) he.symm

/-- C9 (amended): every sanitized name is nonempty and separator-free;
names that are empty or consist purely of separators become
downloaded_file; and whenever the basename of the header name is not "..",
the sanitized name joined to the download directory resolves to a proper
descendant of the download directory. The basename ".." alone passes
through sanitisation and escapes. -/
theorem sanitize_filename_amended (name : List Char) (base : List (List Char))
    (hdd : goBase name ≠ ['.', '.']) :
    (SanitizeFilename name ≠ []
     ∧ (∀ c ∈ SanitizeFilename name, c ≠ '/')
     ∧ pathResolve base [SanitizeFilename name] = base ++ [SanitizeFilename name]
     ∧ properDescendant base (pathResolve base [SanitizeFilename name]))
    ∧ ((name = [] ∨ ∀ c ∈ name, c = '/') →
        SanitizeFilename name = "downloaded_file".toList) := by
  constructor
  · have hx : SanitizeFilename name ≠ [] ∧ (∀ c ∈ SanitizeFilename name, c ≠ '/')
        ∧ SanitizeFilename name ≠ ['.'] ∧ SanitizeFilename name ≠ ['.', '.'] := by
      unfold SanitizeFilename
      by_cases hcond : goBase name = ['.'] ∨ goBase name = ['/']
          ∨ trimSpaceGo (goBase name) = []
      · rw [if_pos hcond]
        exact ⟨by decide, by decide, by decide, by decide⟩
      · rw [if_neg hcond]
        push_neg at hcond
        rcases goBase_no_slash name with h | ⟨hne, hns⟩
        · exact absurd h hcond.2.1
        · exact ⟨hne, hns, hcond.1, hdd⟩
    obtain ⟨hne, hns, hdot, hdotdot⟩ := hx
    have hres := pathResolve_single base (SanitizeFilename name) hne hdot hdotdot
    exact ⟨hne, hns, hres, ⟨[SanitizeFilename name], by simp [hne], hres⟩⟩
  · intro hcase
    rcases hcase with h | h
    · subst h
      decide
    · have hdw : name.reverse.dropWhile (fun c => c == '/') = [] := by
        rw [List.dropWhile_eq_nil_iff]
        intro a ha
        rw [List.mem_reverse] at ha
        simp [h a ha]
      unfold SanitizeFilename
      rw [if_pos ?side]
      case side =>
        by_cases hnil : name = []
        · subst hnil
          exact Or.inl rfl
        · refine Or.inr (Or.inl ?_)
          unfold goBase
          rw [if_neg hnil, if_pos hdw]

theorem sanitize_filename_amended_witness :
    ((SanitizeFilename ['a', '/', 'b', '.', 't', 'x', 't'] ≠ []
     ∧ (∀ c ∈ SanitizeFilename ['a', '/', 'b', '.', 't', 'x', 't'], c ≠ '/')
     ∧ pathResolve [['d', 'l']] [SanitizeFilename ['a', '/', 'b', '.', 't', 'x', 't']]
         = [['d', 'l']] ++ [SanitizeFilename ['a', '/', 'b', '.', 't', 'x', 't']]
     ∧ properDescendant [['d', 'l']]
         (pathResolve [['d', 'l']] [SanitizeFilename ['a', '/', 'b', '.', 't', 'x', 't']]))
    ∧ ((['a', '/', 'b', '.', 't', 'x', 't'] = ([] : List Char)
        ∨ ∀ c ∈ ['a', '/', 'b', '.', 't', 'x', 't'], c = '/') →
        SanitizeFilename ['a', '/', 'b', '.', 't', 'x', 't'] = "downloaded_file".toList)) :=
  sanitize_filename_amended ['a', '/', 'b', '.', 't', 'x', 't'] [['d', 'l']] (by decide)

/-! ## Safe archive extraction (receiver.go:506-549) -/

/-- filepath.Clean on a relative slash-separated path, at the component
level: empty and dot components are dropped and a dot-dot component removes
the previous component when one is available, otherwise it is kept (a
leading dot-dot of a relative path survives Clean). -/
def cleanComps (comps : List (List Char)) : List (List Char) :=
  comps.foldl
    (fun acc c =>
      if c = [] ∨ c = ['.'] then acc
      else if c = ['.', '.'] then
        if acc ≠ [] ∧ acc.getLast? ≠ some ['.', '.'] then acc.dropLast
        else acc ++ [c]
      else acc ++ [c]) []

/-- Check `strings.HasPrefix(fpath, filepath.Clean(dest)+separator)` from
receiver.go:515, at the component level of the two slash-joined cleaned
paths: the cleaned destination must be a strict component prefix of the
joined entry path. -/
def insideDest (dest fpath : List (List Char)) : Bool :=
  dest.isPrefixOf fpath && decide (dest ≠ fpath)

/-- Archive entry as unzip consumes it: slash-separated name components, a
directory flag, and file content bytes. -/
structure ZipEntry where
  name : List (List Char)
  isDir : Bool
  content : List Nat

/-- unzip (receiver.go:506-549): process entries in order; join each entry
name to the destination, stop with an error naming the offending path when
the joined path is not strictly inside the cleaned destination, create
directories for directory entries and write file entries otherwise; returns
the files written and the offending path if extraction stopped. -/
def unzip (dest : List (List Char)) :
    List ZipEntry → List (List (List Char) × List Nat) × Option (List (List Char))
  | [] => ([], none)
  | e :: rest =>
    if insideDest (cleanComps dest) (cleanComps (dest ++ e.name)) then
      if e.isDir then unzip dest rest
      else
        ((cleanComps (dest ++ e.name), e.content) :: (unzip dest rest).1,
         (unzip dest rest).2)
    else ([], some (cleanComps (dest ++ e.name)))

theorem insideDest_descendant (d f : List (List Char)) (h : insideDest d f = true) :
    properDescendant d f := by
  unfold insideDest at h
  rw [Bool.and_eq_true] at h
  obtain ⟨h1, h2⟩ := h
  rw [List.isPrefixOf_iff_prefix] at h1
  obtain ⟨t, ht⟩ := h1
  refine ⟨t, ?_, ht.symm⟩
  intro hnil
  subst hnil
  rw [List.append_nil] at ht
  exact (of_decide_eq_true h2) ht

/-- C5: entries are checked before anything is written, so every file the
extraction writes resolves to a proper descendant of the destination —
entries written before a failing entry all lie under the destination — and
if any entry resolves outside the destination subtree the extraction stops
with an error. -/
theorem unzip_safe_extraction (dest : List (List Char)) (entries : List ZipEntry) :
    (∀ pr ∈ (unzip dest entries).1, properDescendant (cleanComps dest) pr.1)
    ∧ ((∃ e ∈ entries,
          insideDest (cleanComps dest) (cleanComps (dest ++ e.name)) = false) →
        (unzip dest entries).2.isSome) := by
  induction entries with
  | nil =>
    constructor
    · intro pr hpr
      simp [unzip] at hpr
    · rintro ⟨e, he, _⟩
      simp at he
  | cons e rest ih =>
    by_cases hc : insideDest (cleanComps dest) (cleanComps (dest ++ e.name)) = true
    · constructor
      · intro pr hpr
        simp only [unzip, if_pos hc] at hpr
        by_cases hd : e.isDir
        · rw [if_pos hd] at hpr
          exact ih.1 pr hpr
        · rw [if_neg hd] at hpr
          rcases List.mem_cons.mp hpr with hpr | hpr
          · subst hpr
            exact insideDest_descendant _ _ hc
          · exact ih.1 pr hpr
      · rintro ⟨f, hf, hins⟩
        simp only [unzip, if_pos hc]
        rcases List.mem_cons.mp hf with hfe | hfr
        · subst hfe
          rw [hc] at hins
          cases hins
        · have hrec := ih.2 ⟨f, hfr, hins⟩
          by_cases hd : e.isDir
          · rw [if_pos hd]
            exact hrec
          · rw [if_neg hd]
            exact hrec
    · have hc' : insideDest (cleanComps dest) (cleanComps (dest ++ e.name)) = false := by
        revert hc
        cases insideDest (cleanComps dest) (cleanComps (dest ++ e.name)) <;> simp
      constructor
      · intro pr hpr
        simp only [unzip, if_neg hc] at hpr
        simp at hpr
      · intro _
        simp only [unzip, if_neg hc]
        rfl

theorem unzip_safe_extraction_witness :
    (∀ pr ∈ (unzip [['r', 'f']]
        [⟨[['a']], false, [1]⟩, ⟨[['.', '.'], ['e']], false, [2]⟩]).1,
      properDescendant (cleanComps [['r', 'f']]) pr.1)
    ∧ (unzip [['r', 'f']]
        [⟨[['a']], false, [1]⟩, ⟨[['.', '.'], ['e']], false, [2]⟩]).2.isSome := by
  have h := unzip_safe_extraction [['r', 'f']]
    [⟨[['a']], false, [1]⟩, ⟨[['.', '.'], ['e']], false, [2]⟩]
  exact ⟨h.1, h.2 ⟨⟨[['.', '.'], ['e']], false, [2]⟩,
    List.mem_cons_of_mem _ (List.mem_cons_self _ _), by decide⟩⟩

/-! ## Content streaming and hashing (sender.go:191-314, receiver.go:305-491) -/

/-- Bytes the sender's handleTransfer writes to the connection for the
content region and, identically, feeds to its BLAKE3 hasher: the hasher
sits inside io.MultiWriter(conn, hasher) underneath the ChunkedWriter and
the zstd encoder (sender.go:255-304), so with zstd compression both conn
and hasher receive the chunk-framed compressed stream including the closing
sentinel, and without compression both receive the raw source suffix. The
external zstd encoder is modelled by the sequence of slices `compress`
writes for a given input. -/
def senderContentBytes (content : List Nat) (offset : Nat) (compression : String)
    (compress : List Nat → List (List Nat)) : List Nat :=
  if compression = CompressionZstd then
    chunkedEncode (compress (content.drop offset))
  else
    content.drop offset

/-- Receiver content phase without compression (receiver.go:425-430): an
io.LimitReader caps the connection at size - offset bytes and io.TeeReader
feeds the hasher the same bytes that are copied to disk. -/
def receiverContentNone (size offset : Nat) (stream : List Nat) : List Nat :=
  stream.take (size - offset)

/-- Receiver content phase with zstd (receiver.go:407-415): the hasher tees
the connection, the ChunkedReader reads through the tee until the sentinel,
and the external zstd decoder (modelled by `decompress`) turns the
dechunked bytes into the bytes written to disk; returns those file bytes
together with the connection bytes left after the content region, or none
when the chunked stream is malformed or the fuel ran out. -/
def receiverContentZstd (stream : List Nat) (cap fuel : Nat)
    (decompress : List Nat → List Nat) : Option (List Nat × List Nat) :=
  (drainChunked fuel ⟨stream, 0, false⟩ cap).map
    (fun r => (decompress r.1, r.2.stream))

/-- Bytes fed to the receiver's hasher in zstd mode: exactly the connection
bytes the ChunkedReader consumed through the tee (receiver.go:408-409). -/
def receiverHashedZstd (stream : List Nat) (cap fuel : Nat) : Option (List Nat) :=
  (drainChunked fuel ⟨stream, 0, false⟩ cap).map
    (fun r => stream.take (stream.length - r.2.stream.length))

/-- Way the receiver opens the destination file. -/
inductive OpenDisposition
  | appendExisting
  | truncateExisting
  | createNew
  deriving Repr, DecidableEq

/-- Receiver resume negotiation for a non-archive transfer
(receiver.go:366-379), over the claim's cases of an existing regular file
(with its length) or no file: an existing shorter file is opened in append
mode and its length becomes the offset; an existing file of at least the
advertised size is truncated by os.Create; a missing file is created; the
offset is 0 in both latter cases. -/
def negotiateResume (existingLen : Option Nat) (size : Nat) :
    Nat × OpenDisposition :=
  match existingLen with
  | some len =>
    if len < size then (len, .appendExisting) else (0, .truncateExisting)
  | none => (0, .createNew)

/-- Final bytes of the receiver's destination file after the content phase,
given the pre-existing bytes and the open disposition. -/
def finalFileBytes (existing : List Nat) (disp : OpenDisposition)
    (received : List Nat) : List Nat :=
  match disp with
  | .appendExisting => existing ++ received
  | .truncateExisting => received
  | .createNew => received

theorem senderContentBytes_none (content : List Nat) (offset : Nat)
    (compress : List Nat → List (List Nat)) :
    senderContentBytes content offset CompressionNone compress
      = content.drop offset := by
  unfold senderContentBytes
  rw [if_neg (by decide)]

theorem senderContentBytes_zstd (content : List Nat) (offset : Nat)
    (compress : List Nat → List (List Nat)) :
    senderContentBytes content offset CompressionZstd compress
      = chunkedEncode (compress (content.drop offset)) := by
  unfold senderContentBytes
  rw [if_pos rfl]

theorem receiverContentNone_exact (content : List Nat) (offset : Nat)
    (footer : List Nat) :
    receiverContentNone content.length offset (content.drop offset ++ footer)
      = content.drop offset := by
  unfold receiverContentNone
  exact List.take_left' (by rw [List.length_drop])

theorem receiverContentZstd_encode (ps : List (List Nat))
    (h : ∀ p ∈ ps, p.length < 2 ^ 32) (trailing : List Nat) (cap : Nat)
    (hcap : 1 ≤ cap) (decompress : List Nat → List Nat) :
    ∃ fuel, receiverContentZstd (chunkedEncode ps ++ trailing) cap fuel decompress
      = some (decompress ps.flatten, trailing) := by
  obtain ⟨fuel, hf⟩ := drainChunked_encode ps h trailing cap hcap
  refine ⟨fuel + 1, ?_⟩
  unfold receiverContentZstd
  rw [hf]
  rfl

theorem receiverHashedZstd_encode (ps : List (List Nat))
    (h : ∀ p ∈ ps, p.length < 2 ^ 32) (trailing : List Nat) (cap : Nat)
    (hcap : 1 ≤ cap) :
    ∃ fuel, receiverHashedZstd (chunkedEncode ps ++ trailing) cap fuel
      = some (chunkedEncode ps) := by
  obtain ⟨fuel, hf⟩ := drainChunked_encode ps h trailing cap hcap
  refine ⟨fuel + 1, ?_⟩
  unfold receiverHashedZstd
  rw [hf]
  have hl : (chunkedEncode ps ++ trailing).length - trailing.length
      = (chunkedEncode ps).length := by
    rw [List.length_append]
    omega
  dsimp only [Option.map]
  rw [hl, List.take_left]

/-- C1 fails as stated: with zstd compression selected the sender's hasher
tees the connection writes, so the footer digest is computed over the
chunk-framed compressed wire stream rather than over the uncompressed
content; already for the one-byte content [1] and a compressor writing its
input through in one slice, the hashed byte stream is the framed stream,
which is not the content byte range. -/
theorem sender_hash_precompression_counterexample :
    senderContentBytes [1] 0 CompressionZstd (fun bs => [bs])
      = [0, 0, 0, 1, 1, 0, 0, 0, 0]
    ∧ senderContentBytes [1] 0 CompressionZstd (fun bs => [bs]) ≠ [1] := by
  constructor
  · decide
  · decide

/-- Regardless of what byte slices the external zstd encoder produces, the
byte stream the sender hashes in zstd mode carries the 4-byte framing
sentinel and thus is never the single content byte [1]. -/
theorem senderContentBytes_zstd_ne_single (compress : List Nat → List (List Nat)) :
    senderContentBytes [1] 0 CompressionZstd compress ≠ [1] := by
  rw [senderContentBytes_zstd]
  intro h
  have hlen := congrArg List.length h
  simp [chunkedEncode, chunkedWriterClose, beBytes32] at hlen

/-- C1 (amended): the footer digest covers the bytes written to the
connection for the content region, and the receiver hashes the identical
stream: with compression none both sides hash exactly the uncompressed
content from offset to size-1, while with zstd both sides hash the
chunk-framed compressed stream including the sentinel — the sender because
its hasher tees the connection writes, the receiver because its hasher tees
the connection reads consumed by the ChunkedReader — so verification still
compares digests of equal streams, but they are not digests of the
uncompressed content. -/
theorem footer_digest_covers_wire_bytes (content : List Nat) (offset : Nat)
    (compress : List Nat → List (List Nat)) (footer : List Nat) (cap : Nat)
    (hlen : ∀ p ∈ compress (content.drop offset), p.length < 2 ^ 32)
    (hcap : 1 ≤ cap) :
    (senderContentBytes content offset CompressionNone compress
        = content.drop offset
     ∧ receiverContentNone content.length offset
         (senderContentBytes content offset CompressionNone compress ++ footer)
       = content.drop offset)
    ∧ (senderContentBytes content offset CompressionZstd compress
         = chunkedEncode (compress (content.drop offset))
       ∧ ∃ fuel, receiverHashedZstd
           (senderContentBytes content offset CompressionZstd compress ++ footer)
           cap fuel
         = some (senderContentBytes content offset CompressionZstd compress)) := by
  refine ⟨⟨senderContentBytes_none content offset compress, ?_⟩,
    senderContentBytes_zstd content offset compress, ?_⟩
  · rw [senderContentBytes_none]
    exact receiverContentNone_exact content offset footer
  · rw [senderContentBytes_zstd]
    exact receiverHashedZstd_encode (compress (content.drop offset)) hlen footer cap hcap

theorem footer_digest_covers_wire_bytes_witness :
    (senderContentBytes [5, 6, 7] 1 CompressionNone (fun bs => [bs])
        = List.drop 1 [5, 6, 7]
     ∧ receiverContentNone (List.length [5, 6, 7]) 1
         (senderContentBytes [5, 6, 7] 1 CompressionNone (fun bs => [bs])
           ++ List.replicate 32 0)
       = List.drop 1 [5, 6, 7])
    ∧ (senderContentBytes [5, 6, 7] 1 CompressionZstd (fun bs => [bs])
         = chunkedEncode ((fun bs => [bs]) (List.drop 1 [5, 6, 7]))
       ∧ ∃ fuel, receiverHashedZstd
           (senderContentBytes [5, 6, 7] 1 CompressionZstd (fun bs => [bs])
             ++ List.replicate 32 0) 4 fuel
         = some (senderContentBytes [5, 6, 7] 1 CompressionZstd (fun bs => [bs]))) :=
  footer_digest_covers_wire_bytes [5, 6, 7] 1 (fun bs => [bs])
    (List.replicate 32 0) 4 (by decide) (by decide)

/-- C2: a completed receive of a single file starting at offset 0 writes
exactly the sent content B, and checksum verification succeeds because the
receiver's hasher consumes the same byte stream the sender's hasher
produced; this holds without compression and, provided the external zstd
decoder inverts the external encoder on the dechunked stream, with zstd,
where the trailing footer bytes are left on the connection to be read. -/
theorem roundtrip_single_file (B footer : List Nat) (cap : Nat)
    (compress : List Nat → List (List Nat)) (decompress : List Nat → List Nat)
    (hcodec : decompress (compress B).flatten = B)
    (hlen : ∀ p ∈ compress B, p.length < 2 ^ 32) (hcap : 1 ≤ cap) :
    (senderContentBytes B 0 CompressionNone compress = B
     ∧ receiverContentNone B.length 0
         (senderContentBytes B 0 CompressionNone compress ++ footer) = B)
    ∧ (∃ fuel, receiverContentZstd
          (senderContentBytes B 0 CompressionZstd compress ++ footer)
          cap fuel decompress
        = some (B, footer))
    ∧ (∃ fuel, receiverHashedZstd
          (senderContentBytes B 0 CompressionZstd compress ++ footer) cap fuel
        = some (senderContentBytes B 0 CompressionZstd compress)) := by
  have hdrop : B.drop 0 = B := List.drop_zero B
  refine ⟨⟨?_, ?_⟩, ?_, ?_⟩
  · rw [senderContentBytes_none, hdrop]
  · rw [senderContentBytes_none, hdrop]
    have := receiverContentNone_exact B 0 footer
    rw [hdrop] at this
    exact this
  · rw [senderContentBytes_zstd, hdrop]
    obtain ⟨fuel, hf⟩ :=
      receiverContentZstd_encode (compress B) hlen footer cap hcap decompress
    exact ⟨fuel, by rw [hf, hcodec]⟩
  · rw [senderContentBytes_zstd, hdrop]
    exact receiverHashedZstd_encode (compress B) hlen footer cap hcap

theorem roundtrip_single_file_witness :
    (senderContentBytes [1, 2, 3] 0 CompressionNone (fun bs => [bs]) = [1, 2, 3]
     ∧ receiverContentNone (List.length [1, 2, 3]) 0
         (senderContentBytes [1, 2, 3] 0 CompressionNone (fun bs => [bs])
           ++ List.replicate 32 9) = [1, 2, 3])
    ∧ (∃ fuel, receiverContentZstd
          (senderContentBytes [1, 2, 3] 0 CompressionZstd (fun bs => [bs])
            ++ List.replicate 32 9) 1 fuel (fun bs => bs)
        = some ([1, 2, 3], List.replicate 32 9))
    ∧ (∃ fuel, receiverHashedZstd
          (senderContentBytes [1, 2, 3] 0 CompressionZstd (fun bs => [bs])
            ++ List.replicate 32 9) 1 fuel
        = some (senderContentBytes [1, 2, 3] 0 CompressionZstd (fun bs => [bs]))) :=
  roundtrip_single_file [1, 2, 3] (List.replicate 32 9) 1 (fun bs => [bs])
    (fun bs => bs) (by decide) (by decide) (by decide)

/-- C3: with an existing regular target holding k < N bytes equal to the
first k bytes of the source, the receiver negotiates offset k and opens the
target in append mode, the sender's clamp keeps k and it streams exactly
the remaining N-k uncompressed source bytes, and the final appended file
equals the full source in both compression modes; an existing target of
length at least N negotiates offset 0 with truncation, and a missing target
negotiates offset 0 with creation. -/
theorem resume_transfer (B existing footer : List Nat) (cap : Nat)
    (compress : List Nat → List (List Nat)) (decompress : List Nat → List Nat)
    (hk : existing.length < B.length)
    (hpre : existing = B.take existing.length)
    (hcodec : decompress (compress (B.drop existing.length)).flatten
      = B.drop existing.length)
    (hlen : ∀ p ∈ compress (B.drop existing.length), p.length < 2 ^ 32)
    (hcap : 1 ≤ cap) :
    negotiateResume (some existing.length) B.length
      = (existing.length, .appendExisting)
    ∧ clampOffset (existing.length : Int) (B.length : Int) = (existing.length : Int)
    ∧ (senderContentBytes B existing.length CompressionNone compress).length
        = B.length - existing.length
    ∧ finalFileBytes existing .appendExisting
        (receiverContentNone B.length existing.length
          (senderContentBytes B existing.length CompressionNone compress ++ footer))
        = B
    ∧ (∃ fuel, (receiverContentZstd
          (senderContentBytes B existing.length CompressionZstd compress ++ footer)
          cap fuel decompress).map
            (fun r => finalFileBytes existing .appendExisting r.1)
        = some B)
    ∧ (∀ len, B.length ≤ len →
        negotiateResume (some len) B.length = (0, .truncateExisting))
    ∧ negotiateResume none B.length = (0, .createNew) := by
  refine ⟨?_, ?_, ?_, ?_, ?_, ?_, rfl⟩
  · unfold negotiateResume
    dsimp only
    rw [if_pos hk]
  · unfold clampOffset
    rw [if_neg (by omega)]
  · rw [senderContentBytes_none, List.length_drop]
  · rw [senderContentBytes_none]
    rw [receiverContentNone_exact B existing.length footer]
    unfold finalFileBytes
    dsimp only
    rw [hpre, List.length_take, min_eq_left (le_of_lt hk), List.take_append_drop]
  · rw [senderContentBytes_zstd]
    obtain ⟨fuel, hf⟩ := receiverContentZstd_encode (compress (B.drop existing.length))
      hlen footer cap hcap decompress
    refine ⟨fuel, ?_⟩
    rw [hf]
    unfold finalFileBytes
    dsimp only [Option.map]
    rw [hcodec]
    rw [hpre, List.length_take, min_eq_left (le_of_lt hk), List.take_append_drop]
  · intro len hge
    unfold negotiateResume
    dsimp only
    rw [if_neg (not_lt.mpr hge)]

theorem resume_transfer_witness :
    negotiateResume (some (List.length [1])) (List.length [1, 2, 3])
      = (List.length [1], .appendExisting)
    ∧ clampOffset ((List.length [1] : Nat) : Int) ((List.length [1, 2, 3] : Nat) : Int)
        = ((List.length [1] : Nat) : Int)
    ∧ (senderContentBytes [1, 2, 3] (List.length [1]) CompressionNone
        (fun bs => [bs])).length = List.length [1, 2, 3] - List.length [1]
    ∧ finalFileBytes [1] .appendExisting
        (receiverContentNone (List.length [1, 2, 3]) (List.length [1])
          (senderContentBytes [1, 2, 3] (List.length [1]) CompressionNone
            (fun bs => [bs]) ++ [8])) = [1, 2, 3]
    ∧ (∃ fuel, (receiverContentZstd
          (senderContentBytes [1, 2, 3] (List.length [1]) CompressionZstd
            (fun bs => [bs]) ++ [8]) 1 fuel (fun bs => bs)).map
            (fun r => finalFileBytes [1] .appendExisting r.1)
        = some [1, 2, 3])
    ∧ (∀ len, List.length [1, 2, 3] ≤ len →
        negotiateResume (some len) (List.length [1, 2, 3]) = (0, .truncateExisting))
    ∧ negotiateResume none (List.length [1, 2, 3]) = (0, .createNew) :=
  resume_transfer [1, 2, 3] [1] [8] 1 (fun bs => [bs]) (fun bs => bs)
    (by decide) (by decide) (by decide) (by decide) (by decide)
